import Mathlib

/-!
Verification of the TOTP tool's glyph renderer and code-printing logic
(`totp-tool.py`).  The renderers `draw_token_manual_2x` (full density) and
`draw_token_manual` (half density) are embedded as functions over an explicit
print state holding the QR module matrix (`code`, entries `true` = dark
module, matching pyqrcode's 1) and the list of emitted lines (each line a
list of characters).  Out-of-range list indexing in the Python source is
modelled by `Option` (`none` = runtime IndexError).
-/

/-- The state visible to a renderer call: the caller-owned module matrix
(`qrc.code`) and the lines printed so far. -/
structure PrintState where
  code : List (List Bool)
  out : List (List Char)

/-- Cell rendering of the full-density renderer, line 72 of the source:
`['██', '  '][cell]` — a light module (0) yields two filled blocks, a dark
module (1) yields two spaces. -/
def fullGlyph (c : Bool) : List Char := if c then [' ', ' '] else ['█', '█']

/-- One data line of the full-density renderer:
`'████' + ''.join(...) + '████'`. -/
def renderRow2x (row : List Bool) : List Char :=
  ['█', '█', '█', '█'] ++ (row.map fullGlyph).flatten ++ ['█', '█', '█', '█']

/-- The border line of the full-density renderer: `'██' * (4 + n)`. -/
def quietZone2x (n : Nat) : List Char := (List.replicate (4 + n) ['█', '█']).flatten

/-- The `for row in qrc.code` loop of `draw_token_manual_2x`: one printed
line per matrix row. -/
def emitRows2x : List (List Bool) → PrintState → PrintState
  | [], s => s
  | row :: rest, s => emitRows2x rest { s with out := s.out ++ [renderRow2x row] }

/-- `draw_token_manual_2x` (lines 65–76): an empty line, two border lines,
one line per matrix row, two border lines, an empty line.  Accessing
`qrc.code[0]` on an empty matrix raises, modelled by `none`. -/
def draw_token_manual_2x (s : PrintState) : Option PrintState :=
  match s.code with
  | [] => none
  | r0 :: _ =>
    let qz := quietZone2x r0.length
    let s1 := { s with out := s.out ++ [[], qz, qz] }
    let s2 := emitRows2x s.code s1
    some { s2 with out := s2.out ++ [qz, qz, []] }

/-- The full-density renderer as a map from matrix to emitted lines. -/
def renderFullDensity (code : List (List Bool)) : Option (List (List Char)) :=
  (draw_token_manual_2x ⟨code, []⟩).map PrintState.out

/-- One cell step of the half-density renderer (lines 90–99): only dark
cells are touched; on the top row of a pair the buffer cell becomes `'▄'`,
on the bottom row it becomes `' '` if it was `'▄'` and `'▀'` otherwise.
Indexing past the buffer raises, modelled by `none`. -/
def applyCell (buffer : List Char) (bottom : Bool) (i : Nat) : Option (List Char) :=
  if h : i < buffer.length then
    some (buffer.set i
      (if bottom then (if buffer.get ⟨i, h⟩ = '▄' then ' ' else '▀') else '▄'))
  else none

/-- The `for i, cell in enumerate(row)` loop of the half-density renderer,
starting at buffer index `i`. -/
def applyRow : List Char → Bool → List Bool → Nat → Option (List Char)
  | buffer, _, [], _ => some buffer
  | buffer, bottom, c :: rest, i =>
    if c then
      match applyCell buffer bottom i with
      | none => none
      | some b => applyRow b bottom rest (i + 1)
    else applyRow buffer bottom rest (i + 1)

/-- A printed data line of the half-density renderer:
`'██' + ''.join(row_buffer) + '██'`. -/
def mkHalfLine (buffer : List Char) : List Char :=
  ['█', '█'] ++ buffer ++ ['█', '█']

/-- The border line of the half-density renderer: `'█' * (4 + n)`. -/
def quietZoneHalf (n : Nat) : List Char := List.replicate (4 + n) '█'

/-- The row loop of `draw_token_manual` (lines 88–109): a fresh buffer of
`n0` filled blocks, a `print_this_row` flag toggling each row, a line
emitted after every bottom row, and a trailing line when the row count is
odd. -/
def halfLoop (n0 : Nat) :
    List (List Bool) → List Char → Bool → PrintState → Option PrintState
  | [], buffer, bottom, s =>
    some (if bottom then { s with out := s.out ++ [mkHalfLine buffer] } else s)
  | row :: rest, buffer, bottom, s =>
    match applyRow buffer bottom row 0 with
    | none => none
    | some b =>
      if bottom then
        halfLoop n0 rest (List.replicate n0 '█') (!bottom)
          { s with out := s.out ++ [mkHalfLine b] }
      else halfLoop n0 rest b (!bottom) s

/-- `draw_token_manual` (lines 79–112): an empty line, one border line, the
packed data lines, one border line, an empty line.  Accessing `qrc.code[0]`
on an empty matrix raises, modelled by `none`. -/
def draw_token_manual (s : PrintState) : Option PrintState :=
  match s.code with
  | [] => none
  | r0 :: _ =>
    let n0 := r0.length
    let qz := quietZoneHalf n0
    let s1 := { s with out := s.out ++ [[], qz] }
    match halfLoop n0 s.code (List.replicate n0 '█') false s1 with
    | none => none
    | some s2 => some { s2 with out := s2.out ++ [qz, []] }

/-- The half-density renderer as a map from matrix to emitted lines. -/
def renderHalfDensity (code : List (List Bool)) : Option (List (List Char)) :=
  (draw_token_manual ⟨code, []⟩).map PrintState.out

/-- The glyph classification of a (top, bottom) module pair, read off from
the buffer updates of `draw_token_manual`. -/
def pairGlyph : Bool → Bool → Char
  | false, false => '█'
  | true, false => '▄'
  | false, true => '▀'
  | true, true => ' '

/-- The buffer contents after processing a top row against a fresh buffer. -/
def topGlyphRow (r : List Bool) : List Char := r.map (fun c => pairGlyph c false)

/-- The data lines of the half-density renderer, described pairwise: rows
are taken two at a time, and an odd trailing row is rendered with the
missing bottom row taken as light. -/
def specHalfLines : List (List Bool) → List (List Char)
  | [] => []
  | [r] => [mkHalfLine (topGlyphRow r)]
  | r1 :: r2 :: rest => mkHalfLine (List.zipWith pairGlyph r1 r2) :: specHalfLines rest

/-- The single-cell update performed by `applyCell`, as a pure function of
the cell and the previous buffer character. -/
def cellUpdate (bottom : Bool) (c : Bool) (old : Char) : Char :=
  if c then (if bottom then (if old = '▄' then ' ' else '▀') else '▄') else old

/-- Truncation to a 32-bit word. -/
def w32 (x : Nat) : Nat := x % 4294967296

/-- 32-bit left rotation of a word. -/
def rotl32 (n x : Nat) : Nat := w32 ((x <<< n) ||| (x >>> (32 - n)))

/-- Big-endian encoding of `n` into `k` bytes. -/
def toBE (k n : Nat) : List Nat :=
  (List.range k).map (fun i => (n >>> (8 * (k - 1 - i))) % 256)

/-- A 32-bit word from four big-endian bytes. -/
def wordOfBytes (b0 b1 b2 b3 : Nat) : Nat :=
  ((b0 % 256) <<< 24) ||| ((b1 % 256) <<< 16) ||| ((b2 % 256) <<< 8) ||| (b3 % 256)

/-- The sixteen 32-bit words of a 64-byte SHA-1 chunk. -/
def chunkWords (chunk : List Nat) : List Nat :=
  (List.range 16).map (fun i =>
    wordOfBytes (chunk.getD (4 * i) 0) (chunk.getD (4 * i + 1) 0)
      (chunk.getD (4 * i + 2) 0) (chunk.getD (4 * i + 3) 0))

/-- The SHA-1 round function. -/
def sha1F (t b c d : Nat) : Nat :=
  if t < 20 then (b &&& c) ||| ((b ^^^ 4294967295) &&& d)
  else if t < 40 then b ^^^ c ^^^ d
  else if t < 60 then (b &&& c) ||| (b &&& d) ||| (c &&& d)
  else b ^^^ c ^^^ d

/-- The SHA-1 round constants. -/
def sha1K (t : Nat) : Nat :=
  if t < 20 then 1518500249
  else if t < 40 then 1859775393
  else if t < 60 then 2400959708
  else 3395469782

/-- The next word of the SHA-1 message schedule. -/
def nextW (acc : List Nat) : Nat :=
  rotl32 1 ((acc.getD (acc.length - 3) 0) ^^^ (acc.getD (acc.length - 8) 0) ^^^
    (acc.getD (acc.length - 14) 0) ^^^ (acc.getD (acc.length - 16) 0))

/-- The 80-word SHA-1 message schedule from the sixteen chunk words. -/
def sha1Schedule (ws : List Nat) : List Nat :=
  (List.range 64).foldl (fun acc _ => acc ++ [nextW acc]) ws

/-- The five SHA-1 chaining words. -/
structure Sha1State where
  h0 : Nat
  h1 : Nat
  h2 : Nat
  h3 : Nat
  h4 : Nat

/-- One SHA-1 compression step over a 64-byte chunk. -/
def sha1Compress (st : Sha1State) (chunk : List Nat) : Sha1State :=
  let ws := sha1Schedule (chunkWords chunk)
  let r := (List.range 80).foldl
    (fun (r : Nat × Nat × Nat × Nat × Nat) t =>
      let a := r.1
      let b := r.2.1
      let c := r.2.2.1
      let d := r.2.2.2.1
      let e := r.2.2.2.2
      (w32 (rotl32 5 a + sha1F t b c d + e + sha1K t + ws.getD t 0), a, rotl32 30 b, c, d))
    (st.h0, st.h1, st.h2, st.h3, st.h4)
  ⟨w32 (st.h0 + r.1), w32 (st.h1 + r.2.1), w32 (st.h2 + r.2.2.1),
    w32 (st.h3 + r.2.2.2.1), w32 (st.h4 + r.2.2.2.2)⟩

/-- The number of zero bytes of SHA-1 padding after the 0x80 byte. -/
def sha1PadLen (len : Nat) : Nat := (64 + 56 - ((len + 1) % 64)) % 64

/-- SHA-1 message padding: 0x80, zeros to 56 mod 64, 8-byte big-endian bit
length. -/
def sha1Pad (msg : List Nat) : List Nat :=
  msg ++ [128] ++ List.replicate (sha1PadLen msg.length) 0 ++ toBE 8 (8 * msg.length)

/-- Fuelled split of a byte list into 64-byte chunks. -/
def chunks64F : Nat → List Nat → List (List Nat)
  | 0, _ => []
  | _ + 1, [] => []
  | fuel + 1, l => l.take 64 :: chunks64F fuel (l.drop 64)

/-- Split of a byte list into 64-byte chunks. -/
def chunks64 (l : List Nat) : List (List Nat) := chunks64F l.length l

/-- Modelled from the spec: the SHA-1 digest (20 bytes) of a byte sequence,
the keyed-hash primitive named by the spec's HOTP step 2; the hash itself
lives in the external `pyotp`/`hashlib` libraries, not under `src/`. -/
def sha1 (msg : List Nat) : List Nat :=
  let final := (chunks64 (sha1Pad msg)).foldl sha1Compress
    ⟨1732584193, 4023233417, 2562383102, 271733878, 3285377520⟩
  toBE 4 final.h0 ++ toBE 4 final.h1 ++ toBE 4 final.h2 ++
    toBE 4 final.h3 ++ toBE 4 final.h4

/-- Modelled from the spec: HMAC-SHA-1 per RFC 2104 (the spec's "keyed hash
(HMAC with SHA-1, per RFC 4226/6238)"); implemented in external libraries,
not under `src/`. -/
def hmacSha1 (key msg : List Nat) : List Nat :=
  let k0 := if 64 < key.length then sha1 key else key
  let k1 := k0 ++ List.replicate (64 - k0.length) 0
  sha1 ((k1.map (fun b => b ^^^ 92)) ++ sha1 ((k1.map (fun b => b ^^^ 54)) ++ msg))

/-- The decimal digit characters. -/
def digitChar : Nat → Char
  | 0 => '0'
  | 1 => '1'
  | 2 => '2'
  | 3 => '3'
  | 4 => '4'
  | 5 => '5'
  | 6 => '6'
  | 7 => '7'
  | 8 => '8'
  | _ => '9'

/-- Fuelled decimal rendering of a natural number. -/
def decDigitsAux : Nat → Nat → List Char
  | 0, _ => []
  | fuel + 1, n =>
    if n < 10 then [digitChar n]
    else decDigitsAux fuel (n / 10) ++ [digitChar (n % 10)]

/-- Decimal rendering of a natural number, most significant digit first. -/
def decDigits (n : Nat) : List Char := decDigitsAux (n + 1) n

/-- Left zero-padding to `d` characters. -/
def zeroPad (d : Nat) (s : List Char) : List Char :=
  List.replicate (d - s.length) '0' ++ s

/-- Modelled from the spec: HOTP code derivation (spec steps 1–5: 8-byte
big-endian counter, HMAC-SHA-1 digest, dynamic truncation, 31-bit value,
`mod 10^digits` zero-padded); performed by the external `pyotp` library
(`totp.at`), not under `src/`. -/
def hotp (secret : List Nat) (counter digits : Nat) : List Char :=
  let d := hmacSha1 secret (toBE 8 counter)
  let o := d.getD 19 0 &&& 15
  let v := (((d.getD o 0) &&& 127) <<< 24) ||| ((d.getD (o + 1) 0) <<< 16) |||
    ((d.getD (o + 2) 0) <<< 8) ||| (d.getD (o + 3) 0)
  zeroPad digits (decDigits (v % 10 ^ digits))

/-- Modelled from the spec: `deriveCode` computes
`counter = floor(epochSeconds / stepSeconds)` and applies HOTP; performed
by the external `pyotp` library, not under `src/`. -/
def deriveCode (secret : List Nat) (epochSeconds stepSeconds digits : Nat) : List Char :=
  hotp secret (epochSeconds / stepSeconds) digits

/-- Two-character zero-padded decimal field of `strftime`. -/
def pad2 (n : Nat) : List Char := zeroPad 2 (decDigits n)

/-- The `%H:%M:%S` clock rendering of an epoch instant. -/
def hhmmssChars (t : Nat) : List Char :=
  pad2 (t / 3600 % 24) ++ [':'] ++ pad2 (t / 60 % 60) ++ [':'] ++ pad2 (t % 60)

/-- `print_code` (lines 115–124): the instant is `now` shifted by
`time_delta` seconds (the source skips the shift when the delta is zero),
and the line is `At HH:MM:SS, the check code is: NNNNNN` with the TOTP code
at that instant. -/
def print_code (secret : List Nat) (now : Nat) (time_delta : Int) : List Char :=
  let dt : Int := if time_delta ≠ 0 then (now : Int) + time_delta else (now : Int)
  let t : Nat := dt.toNat
  "At ".toList ++ hhmmssChars t ++ ", the check code is: ".toList ++
    deriveCode secret t 30 6

/-- The code lines printed by `main` (lines 143–149): with `--extra-codes`
the calls go −60, −30, 0, +30, +60; otherwise only the current code. -/
def mainCodeLines (secret : List Nat) (now : Nat) (extra_codes : Bool) : List (List Char) :=
  if extra_codes then
    [print_code secret now (-60), print_code secret now (-30), print_code secret now 0,
      print_code secret now 30, print_code secret now 60]
  else [print_code secret now 0]

/-- Induction on a list two elements at a time. -/
theorem pairInduction {α : Type} {P : List α → Prop} (h0 : P [])
    (h1 : ∀ r, P [r]) (h2 : ∀ r1 r2 rest, P rest → P (r1 :: r2 :: rest)) :
    ∀ code, P code
  | [] => h0
  | [r] => h1 r
  | r1 :: r2 :: rest => h2 r1 r2 rest (pairInduction h0 h1 h2 rest)

theorem emitRows2x_out (rows : List (List Bool)) (s : PrintState) :
    (emitRows2x rows s).out = s.out ++ rows.map renderRow2x := by
  induction rows generalizing s with
  | nil => simp [emitRows2x]
  | cons r rest ih => simp [emitRows2x, ih]

theorem emitRows2x_code (rows : List (List Bool)) (s : PrintState) :
    (emitRows2x rows s).code = s.code := by
  induction rows generalizing s with
  | nil => rfl
  | cons r rest ih => simp [emitRows2x, ih]

theorem draw_token_manual_2x_eq (s : PrintState) (r0 : List Bool)
    (rest : List (List Bool)) (hc : s.code = r0 :: rest) :
    draw_token_manual_2x s =
      some ⟨s.code, s.out ++
        ([[], quietZone2x r0.length, quietZone2x r0.length] ++
          s.code.map renderRow2x ++
          [quietZone2x r0.length, quietZone2x r0.length, []])⟩ := by
  obtain ⟨code, out⟩ := s
  simp only at hc
  subst hc
  simp [draw_token_manual_2x, emitRows2x_out, emitRows2x_code]

theorem renderFullDensity_eq (r0 : List Bool) (rest : List (List Bool)) :
    renderFullDensity (r0 :: rest) =
      some ([[], quietZone2x r0.length, quietZone2x r0.length] ++
        (r0 :: rest).map renderRow2x ++
        [quietZone2x r0.length, quietZone2x r0.length, []]) := by
  simp [renderFullDensity, draw_token_manual_2x_eq ⟨r0 :: rest, []⟩ r0 rest rfl]

theorem applyCell_cons (x : Char) (buffer : List Char) (bottom : Bool) (i : Nat) :
    applyCell (x :: buffer) bottom (i + 1) = (applyCell buffer bottom i).map (x :: ·) := by
  by_cases h : i < buffer.length
  · simp [applyCell, h, Nat.succ_lt_succ h, List.get]
  · simp [applyCell, h, fun hh => h (Nat.lt_of_succ_lt_succ hh)]

theorem applyRow_cons (row : List Bool) (x : Char) (buffer : List Char)
    (bottom : Bool) (i : Nat) :
    applyRow (x :: buffer) bottom row (i + 1) = (applyRow buffer bottom row i).map (x :: ·) := by
  induction row generalizing buffer x i with
  | nil => simp [applyRow]
  | cons c rest ih =>
    by_cases hc : c
    · subst hc
      simp only [applyRow, if_true, applyCell_cons]
      cases h : applyCell buffer bottom i with
      | none => simp
      | some b => simpa using ih x b (i + 1)
    · simp only [applyRow, if_neg hc]
      exact ih x buffer (i + 1)

theorem applyRow_zero (row : List Bool) (buffer : List Char) (bottom : Bool)
    (h : row.length ≤ buffer.length) :
    applyRow buffer bottom row 0 =
      some (List.zipWith (cellUpdate bottom) row buffer ++ buffer.drop row.length) := by
  induction row generalizing buffer with
  | nil => simp [applyRow]
  | cons c rest ih =>
    cases buffer with
    | nil => simp at h
    | cons o bs =>
      simp only [List.length_cons, Nat.succ_le_succ_iff] at h
      by_cases hc : c
      · subst hc
        simp only [applyRow, if_true, applyCell, List.length_cons,
          Nat.zero_lt_succ, dif_pos, List.get, List.set]
        rw [applyRow_cons, ih bs h]
        simp [cellUpdate, List.zipWith]
      · simp only [applyRow, if_neg hc]
        rw [applyRow_cons, ih bs h]
        simp [cellUpdate, hc, List.zipWith]

theorem zipWith_cellUpdate_top (r : List Bool) (n : Nat) (h : r.length ≤ n) :
    List.zipWith (cellUpdate false) r (List.replicate n '█') = topGlyphRow r := by
  induction r generalizing n with
  | nil => simp [topGlyphRow]
  | cons c rest ih =>
    cases n with
    | zero => simp at h
    | succ m =>
      simp only [List.length_cons, Nat.succ_le_succ_iff] at h
      simp only [List.replicate, List.zipWith, topGlyphRow, List.map_cons, ih m h]
      cases c <;> simp [cellUpdate, pairGlyph, topGlyphRow]

theorem zipWith_cellUpdate_bottom (r1 r2 : List Bool) (h : r1.length = r2.length) :
    List.zipWith (cellUpdate true) r2 (topGlyphRow r1) = List.zipWith pairGlyph r1 r2 := by
  induction r1 generalizing r2 with
  | nil =>
    cases r2 with
    | nil => rfl
    | cons c2 rest2 => simp at h
  | cons c1 rest1 ih =>
    cases r2 with
    | nil => simp at h
    | cons c2 rest2 =>
      simp only [List.length_cons, Nat.succ_inj'] at h
      have hhd : topGlyphRow (c1 :: rest1) = pairGlyph c1 false :: topGlyphRow rest1 := rfl
      rw [hhd]
      simp only [List.zipWith]
      rw [ih rest2 h]
      cases c1 <;> cases c2 <;> simp [cellUpdate, pairGlyph]

theorem topGlyphRow_length (r : List Bool) : (topGlyphRow r).length = r.length := by
  simp [topGlyphRow]

theorem applyRow_top_fresh (r : List Bool) (n : Nat) (h : r.length = n) :
    applyRow (List.replicate n '█') false r 0 = some (topGlyphRow r) := by
  rw [applyRow_zero r (List.replicate n '█') false (by simp [h])]
  rw [zipWith_cellUpdate_top r n (by omega), h]
  simp

theorem applyRow_bottom_packed (r1 r2 : List Bool) (h : r1.length = r2.length) :
    applyRow (topGlyphRow r1) true r2 0 = some (List.zipWith pairGlyph r1 r2) := by
  rw [applyRow_zero r2 (topGlyphRow r1) true (by simp [topGlyphRow, h])]
  rw [zipWith_cellUpdate_bottom r1 r2 h]
  simp [topGlyphRow, h]

theorem halfLoop_spec (n : Nat) (code : List (List Bool)) :
    (∀ r ∈ code, r.length = n) → ∀ s : PrintState,
      halfLoop n code (List.replicate n '█') false s =
        some { s with out := s.out ++ specHalfLines code } := by
  induction code using pairInduction with
  | h0 =>
    intro _ s
    simp [halfLoop, specHalfLines]
  | h1 r =>
    intro hr s
    have hlen : r.length = n := hr r (by simp)
    simp [halfLoop, applyRow_top_fresh r n hlen, specHalfLines]
  | h2 r1 r2 rest ih =>
    intro hr s
    have h1 : r1.length = n := hr r1 (by simp)
    have h2' : r2.length = n := hr r2 (by simp)
    have hrest : ∀ r ∈ rest, r.length = n := fun r hm => hr r (by simp [hm])
    simp only [halfLoop, applyRow_top_fresh r1 n h1, Bool.not_false, if_neg Bool.false_ne_true,
      applyRow_bottom_packed r1 r2 (by omega), Bool.not_true, if_pos rfl]
    rw [ih hrest]
    simp [specHalfLines]

theorem halfLoop_code (n : Nat) (rows : List (List Bool)) :
    ∀ (buffer : List Char) (bottom : Bool) (s s' : PrintState),
      halfLoop n rows buffer bottom s = some s' → s'.code = s.code := by
  induction rows with
  | nil =>
    intro buffer bottom s s' h
    simp only [halfLoop] at h
    cases bottom <;> simp at h <;> subst h <;> rfl
  | cons row rest ih =>
    intro buffer bottom s s' h
    simp only [halfLoop] at h
    cases happ : applyRow buffer bottom row 0 with
    | none => rw [happ] at h; exact absurd h (by simp)
    | some b =>
      rw [happ] at h
      cases bottom with
      | false => simpa using ih b true s s' (by simpa using h)
      | true =>
        have := ih (List.replicate n '█') false _ s' (by simpa using h)
        simpa using this

theorem halfLoop_out_length (n : Nat) (code : List (List Bool)) :
    ∀ (s s' : PrintState),
      halfLoop n code (List.replicate n '█') false s = some s' →
        s'.out.length = s.out.length + (code.length + 1) / 2 := by
  induction code using pairInduction with
  | h0 =>
    intro s s' h
    simp only [halfLoop] at h
    simp_all
  | h1 r =>
    intro s s' h
    simp only [halfLoop] at h
    cases happ : applyRow (List.replicate n '█') false r 0 with
    | none => rw [happ] at h; exact absurd h (by simp)
    | some b =>
      rw [happ] at h
      simp only [Bool.not_false, halfLoop, if_pos rfl] at h
      cases h
      simp
  | h2 r1 r2 rest ih =>
    intro s s' h
    simp only [halfLoop] at h
    cases happ : applyRow (List.replicate n '█') false r1 0 with
    | none => rw [happ] at h; exact absurd h (by simp)
    | some b1 =>
      rw [happ] at h
      simp only [Bool.not_false, if_neg Bool.false_ne_true, halfLoop] at h
      cases happ2 : applyRow b1 true r2 0 with
      | none => rw [happ2] at h; exact absurd h (by simp)
      | some b2 =>
        rw [happ2] at h
        simp only [Bool.not_true, if_pos rfl] at h
        have := ih _ s' h
        simp only [List.length_append, List.length_cons, List.length_nil] at this ⊢
        omega

theorem draw_token_manual_eq (s : PrintState) (r0 : List Bool)
    (rest : List (List Bool)) (hc : s.code = r0 :: rest)
    (hr : ∀ r ∈ s.code, r.length = r0.length) :
    draw_token_manual s =
      some ⟨s.code, s.out ++
        ([[], quietZoneHalf r0.length] ++ specHalfLines s.code ++
          [quietZoneHalf r0.length, []])⟩ := by
  obtain ⟨code, out⟩ := s
  simp only at hc
  subst hc
  simp only at hr
  simp only [draw_token_manual]
  rw [halfLoop_spec r0.length (r0 :: rest) hr]
  simp

theorem renderHalfDensity_eq (r0 : List Bool) (rest : List (List Bool))
    (hr : ∀ r ∈ (r0 :: rest : List (List Bool)), r.length = r0.length) :
    renderHalfDensity (r0 :: rest) =
      some ([[], quietZoneHalf r0.length] ++ specHalfLines (r0 :: rest) ++
        [quietZoneHalf r0.length, []]) := by
  simp [renderHalfDensity, draw_token_manual_eq ⟨r0 :: rest, []⟩ r0 rest rfl hr]

theorem specHalfLines_length (code : List (List Bool)) :
    (specHalfLines code).length = (code.length + 1) / 2 := by
  induction code using pairInduction with
  | h0 => rfl
  | h1 r => simp [specHalfLines]
  | h2 r1 r2 rest ih => simp only [specHalfLines, List.length_cons, ih]; omega

theorem specHalfLines_getLast_odd (code : List (List Bool)) :
    ∀ r, code.length % 2 = 1 → code.getLast? = some r →
      (specHalfLines code).getLast? = some (mkHalfLine (topGlyphRow r)) := by
  induction code using pairInduction with
  | h0 => intro r h; simp at h
  | h1 r' =>
    intro r _ hlast
    simp only [List.getLast?_singleton, Option.some_inj] at hlast
    subst hlast
    rfl
  | h2 r1 r2 rest ih =>
    intro r hodd hlast
    have hodd' : rest.length % 2 = 1 := by
      simp only [List.length_cons] at hodd; omega
    have hne : rest ≠ [] := by
      intro hnil; rw [hnil] at hodd'; simp at hodd'
    obtain ⟨x, l, rfl⟩ := List.exists_cons_of_ne_nil hne
    have hlast' : (x :: l).getLast? = some r := by
      rw [List.getLast?_cons_cons, List.getLast?_cons_cons] at hlast
      exact hlast
    have hs := ih r hodd' hlast'
    have hsne : specHalfLines (x :: l) ≠ [] := by
      intro hnil
      have := specHalfLines_length (x :: l)
      rw [hnil] at this
      simp only [List.length_nil, List.length_cons] at this
      omega
    obtain ⟨y, m, hy⟩ := List.exists_cons_of_ne_nil hsne
    simp only [specHalfLines, hy, List.getLast?_cons_cons] at hs ⊢
    exact hs

theorem digitChar_isDigit (n : Nat) : (digitChar n).isDigit = true := by
  rcases n with _ | _ | _ | _ | _ | _ | _ | _ | _ | m
  · decide
  · decide
  · decide
  · decide
  · decide
  · decide
  · decide
  · decide
  · decide
  · show ('9').isDigit = true
    decide

theorem decDigitsAux_ext (f1 : Nat) :
    ∀ (f2 n : Nat), n < f1 → n < f2 → decDigitsAux f1 n = decDigitsAux f2 n := by
  induction f1 with
  | zero => intro f2 n h1; omega
  | succ g1 ih =>
    intro f2 n h1 h2
    cases f2 with
    | zero => omega
    | succ g2 =>
      by_cases hn : n < 10
      · simp [decDigitsAux, hn]
      · have hdiv : n / 10 < n := Nat.div_lt_self (by omega) (by omega)
        simp only [decDigitsAux, if_neg hn]
        rw [ih g2 (n / 10) (by omega) (by omega)]

theorem decDigits_small (n : Nat) (h : n < 10) : decDigits n = [digitChar n] := by
  simp [decDigits, decDigitsAux, h]

theorem decDigits_step (n : Nat) (h : 10 ≤ n) :
    decDigits n = decDigits (n / 10) ++ [digitChar (n % 10)] := by
  have hdiv : n / 10 < n := Nat.div_lt_self (by omega) (by omega)
  have h1 : decDigits n = decDigitsAux n (n / 10) ++ [digitChar (n % 10)] := by
    simp only [decDigits]
    rw [show decDigitsAux (n + 1) n =
      if n < 10 then [digitChar n]
      else decDigitsAux n (n / 10) ++ [digitChar (n % 10)] from rfl]
    rw [if_neg (by omega : ¬ n < 10)]
  rw [h1, decDigitsAux_ext n (n / 10 + 1) (n / 10) (by omega) (by omega)]
  simp only [decDigits]

theorem decDigits_length_le (n : Nat) :
    ∀ d : Nat, n < 10 ^ d → 1 ≤ d → (decDigits n).length ≤ d := by
  induction n using Nat.strong_induction_on with
  | _ n ih =>
    intro d hd h1
    by_cases hn : n < 10
    · rw [decDigits_small n hn]
      simpa using h1
    · cases d with
      | zero => omega
      | succ d' =>
        have hd' : 1 ≤ d' := by
          rcases Nat.eq_or_lt_of_le h1 with h | h
          · exfalso
            rw [← h] at hd
            simp at hd
            omega
          · omega
        have hdiv : n / 10 < n := Nat.div_lt_self (by omega) (by omega)
        have hbound : n / 10 < 10 ^ d' := by
          rw [Nat.div_lt_iff_lt_mul (by omega : 0 < 10)]
          calc n < 10 ^ (d' + 1) := hd
            _ = 10 ^ d' * 10 := by ring
        rw [decDigits_step n (by omega)]
        have := ih (n / 10) hdiv d' hbound hd'
        simp only [List.length_append, List.length_cons, List.length_nil]
        omega

theorem decDigits_all_digit (n : Nat) :
    ∀ ch ∈ decDigits n, ch.isDigit = true := by
  induction n using Nat.strong_induction_on with
  | _ n ih =>
    intro ch hch
    by_cases hn : n < 10
    · rw [decDigits_small n hn] at hch
      simp only [List.mem_singleton] at hch
      subst hch
      exact digitChar_isDigit n
    · have hdiv : n / 10 < n := Nat.div_lt_self (by omega) (by omega)
      rw [decDigits_step n (by omega)] at hch
      rcases List.mem_append.mp hch with h | h
      · exact ih (n / 10) hdiv ch h
      · simp only [List.mem_singleton] at h
        subst h
        exact digitChar_isDigit (n % 10)

theorem zeroPad_length (d : Nat) (s : List Char) (h : s.length ≤ d) :
    (zeroPad d s).length = d := by
  simp only [zeroPad, List.length_append, List.length_replicate]
  omega

theorem zeroPad_all_digit (d : Nat) (s : List Char)
    (hs : ∀ c ∈ s, c.isDigit = true) : ∀ ch ∈ zeroPad d s, ch.isDigit = true := by
  intro ch hch
  rcases List.mem_append.mp hch with h | h
  · have := List.eq_of_mem_replicate h
    subst this
    decide
  · exact hs ch h

theorem hotp_length (secret : List Nat) (counter digits : Nat) (hd : 1 ≤ digits) :
    (hotp secret counter digits).length = digits := by
  apply zeroPad_length
  apply decDigits_length_le _ digits _ hd
  exact Nat.mod_lt _ (Nat.pos_pow_of_pos digits (by omega))

theorem hotp_all_digit (secret : List Nat) (counter digits : Nat) :
    ∀ ch ∈ hotp secret counter digits, ch.isDigit = true := by
  apply zeroPad_all_digit
  exact decDigits_all_digit _

theorem pad2_length (n : Nat) (h : n < 100) : (pad2 n).length = 2 := by
  apply zeroPad_length
  exact decDigits_length_le n 2 (by omega) (by omega)

theorem pad2_all_digit (n : Nat) : ∀ ch ∈ pad2 n, ch.isDigit = true :=
  zeroPad_all_digit 2 (decDigits n) (decDigits_all_digit n)

theorem print_code_shape (secret : List Nat) (now : Nat) (delta : Int) :
    ∃ hh mm ss c, print_code secret now delta =
        "At ".toList ++ hh ++ [':'] ++ mm ++ [':'] ++ ss ++
          ", the check code is: ".toList ++ c ∧
      hh.length = 2 ∧ mm.length = 2 ∧ ss.length = 2 ∧ c.length = 6 ∧
      (∀ ch ∈ hh ++ mm ++ ss ++ c, ch.isDigit = true) := by
  refine ⟨pad2 (((if delta ≠ 0 then (now : Int) + delta else (now : Int)).toNat) / 3600 % 24),
    pad2 (((if delta ≠ 0 then (now : Int) + delta else (now : Int)).toNat) / 60 % 60),
    pad2 (((if delta ≠ 0 then (now : Int) + delta else (now : Int)).toNat) % 60),
    deriveCode secret ((if delta ≠ 0 then (now : Int) + delta else (now : Int)).toNat) 30 6,
    ?_, ?_, ?_, ?_, ?_, ?_⟩
  · simp only [print_code, hhmmssChars, List.append_assoc]
  · exact pad2_length _ (by omega)
  · exact pad2_length _ (by have := Nat.mod_lt ((if delta ≠ 0 then (now : Int) + delta else (now : Int)).toNat / 60) (by omega : 0 < 60); omega)
  · exact pad2_length _ (by have := Nat.mod_lt ((if delta ≠ 0 then (now : Int) + delta else (now : Int)).toNat) (by omega : 0 < 60); omega)
  · exact hotp_length _ _ _ (by omega)
  · intro ch hch
    rcases List.mem_append.mp hch with h | h
    · rcases List.mem_append.mp h with h | h
      · rcases List.mem_append.mp h with h | h
        · exact pad2_all_digit _ ch h
        · exact pad2_all_digit _ ch h
      · exact pad2_all_digit _ ch h
    · exact hotp_all_digit _ _ _ ch h

theorem replicate_pair_flatten_length (m : Nat) :
    ((List.replicate m (['█', '█'] : List Char)).flatten).length = 2 * m := by
  induction m with
  | zero => rfl
  | succ k ih =>
    simp only [List.replicate, List.flatten_cons, List.length_append, ih,
      List.length_cons, List.length_nil]
    omega

theorem quietZone2x_length (n : Nat) : (quietZone2x n).length = 2 * (4 + n) :=
  replicate_pair_flatten_length (4 + n)

theorem fullGlyph_length (c : Bool) : (fullGlyph c).length = 2 := by
  cases c <;> rfl

theorem flatten_fullGlyph_length (row : List Bool) :
    ((row.map fullGlyph).flatten).length = 2 * row.length := by
  induction row with
  | nil => rfl
  | cons c rest ih =>
    simp only [List.map_cons, List.flatten_cons, List.length_append, ih,
      fullGlyph_length, List.length_cons]
    omega

theorem renderRow2x_length (row : List Bool) :
    (renderRow2x row).length = 2 * row.length + 8 := by
  simp only [renderRow2x, List.length_append, flatten_fullGlyph_length]
  simp
  omega

theorem flatten_glyph_extract (row : List Bool) :
    ∀ (j : Nat) (c : Bool) (tail : List Char), row[j]? = some c →
      (((row.map fullGlyph).flatten ++ tail).drop (2 * j)).take 2 = fullGlyph c := by
  induction row with
  | nil =>
    intro j c tail h
    simp at h
  | cons c0 rest ih =>
    intro j c tail h
    cases j with
    | zero =>
      simp only [List.getElem?_cons_zero, Option.some_inj] at h
      subst h
      simp only [List.map_cons, List.flatten_cons, Nat.mul_zero, List.drop_zero,
        List.append_assoc]
      exact List.take_left' (fullGlyph_length c0)
    | succ j' =>
      simp only [List.getElem?_cons_succ] at h
      have hrec := ih j' c tail h
      simp only [List.map_cons, List.flatten_cons, List.append_assoc, Nat.mul_succ]
      rw [show 2 * j' + 2 = 2 * j' + 1 + 1 from rfl]
      cases c0 <;>
        simpa only [fullGlyph, if_true, if_false, Bool.false_eq_true,
          List.cons_append, List.drop_succ_cons, List.nil_append] using hrec

theorem halfLoop_isSome (n : Nat) (code : List (List Bool)) :
    ∀ (buffer : List Char) (bottom : Bool) (s : PrintState),
      buffer.length = n → (∀ r ∈ code, r.length ≤ n) →
        (halfLoop n code buffer bottom s).isSome = true := by
  induction code with
  | nil =>
    intro buffer bottom s _ _
    simp [halfLoop]
  | cons row rest ih =>
    intro buffer bottom s hb hr
    have hrow : row.length ≤ buffer.length := by
      rw [hb]
      exact hr row (by simp)
    have hrest : ∀ r ∈ rest, r.length ≤ n := fun r hm => hr r (by simp [hm])
    simp only [halfLoop, applyRow_zero row buffer bottom hrow]
    have hlen : (List.zipWith (cellUpdate bottom) row buffer ++
        buffer.drop row.length).length = n := by
      simp only [List.length_append, List.length_zipWith, List.length_drop]
      omega
    cases bottom with
    | false => simpa using ih _ true s hlen hrest
    | true =>
      simpa using ih (List.replicate n '█') false _ (by simp) hrest

theorem halfLoop_out_extend (n : Nat) (code : List (List Bool)) :
    ∀ (buffer : List Char) (bottom : Bool) (s s' : PrintState),
      halfLoop n code buffer bottom s = some s' →
        ∃ tail, s'.out = s.out ++ tail := by
  induction code with
  | nil =>
    intro buffer bottom s s' h
    simp only [halfLoop] at h
    cases bottom
    · simp at h
      subst h
      exact ⟨[], by simp⟩
    · simp at h
      subst h
      exact ⟨[mkHalfLine buffer], rfl⟩
  | cons row rest ih =>
    intro buffer bottom s s' h
    simp only [halfLoop] at h
    cases happ : applyRow buffer bottom row 0 with
    | none => rw [happ] at h; exact absurd h (by simp)
    | some b =>
      rw [happ] at h
      cases bottom with
      | false =>
        exact ih b true s s' (by simpa using h)
      | true =>
        obtain ⟨tail, htail⟩ := ih (List.replicate n '█') false _ s' (by simpa using h)
        exact ⟨mkHalfLine b :: tail, by simpa using htail⟩

example : renderFullDensity [[true]] =
    some [[], quietZone2x 1, quietZone2x 1,
      ['█', '█', '█', '█', ' ', ' ', '█', '█', '█', '█'],
      quietZone2x 1, quietZone2x 1, []] := by decide

example : renderHalfDensity [[true], [false]] =
    some [[], quietZoneHalf 1, ['█', '█', '▄', '█', '█'], quietZoneHalf 1, []] := by
  decide

example : renderHalfDensity [[true]] =
    some [[], quietZoneHalf 1, ['█', '█', '▄', '█', '█'], quietZoneHalf 1, []] := by
  decide

example : renderFullDensity [] = none := by decide

/-- Claim C1 counterexample: the full-density renderer maps the dark module
of the 1×1 all-dark matrix to two spaces, not to a filled block glyph pair —
the colors are the reverse of the claim. -/
theorem c1_counterexample :
    renderFullDensity [[true]] =
      some [[], quietZone2x 1, quietZone2x 1,
        ['█', '█', '█', '█', ' ', ' ', '█', '█', '█', '█'],
        quietZone2x 1, quietZone2x 1, []] ∧
    (['█', '█', '█', '█', ' ', ' ', '█', '█', '█', '█'] : List Char) ≠
      ['█', '█', '█', '█', '█', '█', '█', '█', '█', '█'] := by decide

/-- Claim C1 (amended): in every emitted data line the full-density renderer
maps each dark module to two space characters and each light module to a
filled block glyph pair; module `(i, j)` occupies characters `4 + 2j` and
`4 + 2j + 1` of output line `3 + i`. -/
theorem c1_amended (code : List (List Bool)) (lines : List (List Char))
    (i j : Nat) (row : List Bool) (c : Bool)
    (hrender : renderFullDensity code = some lines)
    (hi : code[i]? = some row) (hj : row[j]? = some c) :
    lines[3 + i]? = some (renderRow2x row) ∧
    ((renderRow2x row).drop (4 + 2 * j)).take 2 =
      (if c then [' ', ' '] else ['█', '█']) := by
  constructor
  · cases code with
    | nil => simp at hi
    | cons r0 rest =>
      rw [renderFullDensity_eq] at hrender
      have hL := Option.some.inj hrender
      subst hL
      obtain ⟨hlt, -⟩ := List.getElem?_eq_some_iff.mp hi
      rw [List.append_assoc]
      rw [List.getElem?_append_right
        (by simp : ([[], quietZone2x r0.length, quietZone2x r0.length] :
          List (List Char)).length ≤ 3 + i)]
      have h3 : 3 + i - ([[], quietZone2x r0.length, quietZone2x r0.length] :
          List (List Char)).length = i := by simp
      rw [h3]
      rw [List.getElem?_append_left (by simpa using hlt)]
      rw [List.getElem?_map, hi]
      rfl
  · simp only [renderRow2x]
    rw [List.append_assoc]
    rw [show (4 : Nat) + 2 * j =
      (['█', '█', '█', '█'] : List Char).length + 2 * j from rfl]
    rw [← List.drop_drop]
    rw [List.drop_left]
    exact flatten_glyph_extract row j c ['█', '█', '█', '█'] hj

/-- Claim C1 witness: instantiation at the 1×1 all-dark matrix. -/
theorem c1_witness :
    ([[], quietZone2x 1, quietZone2x 1,
        ['█', '█', '█', '█', ' ', ' ', '█', '█', '█', '█'],
        quietZone2x 1, quietZone2x 1, []] : List (List Char))[3 + 0]? =
      some (renderRow2x [true]) ∧
    ((renderRow2x [true]).drop (4 + 2 * 0)).take 2 =
      (if true then [' ', ' '] else ['█', '█']) :=
  c1_amended [[true]]
    [[], quietZone2x 1, quietZone2x 1,
      ['█', '█', '█', '█', ' ', ' ', '█', '█', '█', '█'],
      quietZone2x 1, quietZone2x 1, []]
    0 0 [true] true (by decide) (by decide) (by decide)

/-- Claim C2 counterexample: a top-dark/bottom-light column yields the
lower-half block `'▄'` (not the claimed upper-half block), and a
top-light/bottom-dark column yields the upper-half block `'▀'` (not the
claimed lower-half block). -/
theorem c2_counterexample :
    (renderHalfDensity [[true], [false]] =
        some [[], quietZoneHalf 1, ['█', '█', '▄', '█', '█'], quietZoneHalf 1, []] ∧
      ('▄' : Char) ≠ '▀') ∧
    (renderHalfDensity [[false], [true]] =
        some [[], quietZoneHalf 1, ['█', '█', '▀', '█', '█'], quietZoneHalf 1, []] ∧
      ('▀' : Char) ≠ '▄') := by decide

/-- Claim C2 (amended): on rectangular matrices the half-density renderer
emits exactly the pairwise classification `specHalfLines`, whose per-column
glyphs are: both light → solid block, top-dark/bottom-light → lower-half
block, top-light/bottom-dark → upper-half block, both dark → space. -/
theorem c2_amended (r0 : List Bool) (rest : List (List Bool))
    (hr : ∀ r ∈ (r0 :: rest : List (List Bool)), r.length = r0.length) :
    renderHalfDensity (r0 :: rest) =
      some ([[], quietZoneHalf r0.length] ++ specHalfLines (r0 :: rest) ++
        [quietZoneHalf r0.length, []]) ∧
    pairGlyph false false = '█' ∧ pairGlyph true false = '▄' ∧
    pairGlyph false true = '▀' ∧ pairGlyph true true = ' ' :=
  ⟨renderHalfDensity_eq r0 rest hr, rfl, rfl, rfl, rfl⟩

/-- Claim C2 witness: instantiation at the 2×1 matrix with a dark top
module. -/
theorem c2_witness :
    renderHalfDensity [[true], [false]] =
      some ([[], quietZoneHalf 1] ++ specHalfLines [[true], [false]] ++
        [quietZoneHalf 1, []]) ∧
    pairGlyph false false = '█' ∧ pairGlyph true false = '▄' ∧
    pairGlyph false true = '▀' ∧ pairGlyph true true = ' ' :=
  c2_amended [true] [[false]] (by decide)

/-- Claim C3 counterexample: for the 1×1 matrix every data line is 10
characters wide (2·1 + 8), not the claimed 2·1 + 4 = 6. -/
theorem c3_counterexample :
    (renderFullDensity [[false]]).map (fun ls => ls.map List.length) =
      some [0, 10, 10, 10, 10, 10, 0] ∧ (10 : Nat) ≠ 2 * 1 + 4 := by decide

/-- Claim C3 (amended): for a square matrix of side `n ≥ 1` the full-density
renderer emits `n + 4` border-and-data lines (plus the two surrounding empty
lines), and every border or data line is `2n + 8` characters wide (`n`
two-character module cells plus two two-character border cells on each
side). -/
theorem c3_amended (code : List (List Bool)) (n : Nat) (lines : List (List Char))
    (hn : 1 ≤ n) (hlen : code.length = n) (hr : ∀ r ∈ code, r.length = n)
    (hrender : renderFullDensity code = some lines) :
    lines.length = (n + 4) + 2 ∧ lines.head? = some [] ∧
    lines.getLast? = some [] ∧
    ∀ l ∈ lines.tail.dropLast, l.length = 2 * n + 8 := by
  cases code with
  | nil => simp at hlen; omega
  | cons r0 rest =>
    have h0 : r0.length = n := hr r0 (by simp)
    rw [renderFullDensity_eq] at hrender
    have hL := Option.some.inj hrender
    subst hL
    refine ⟨?_, ?_, ?_, ?_⟩
    · simp only [List.length_append, List.length_map, List.length_cons,
        List.length_nil] at hlen ⊢
      omega
    · simp
    · rw [show ([quietZone2x r0.length, quietZone2x r0.length, []] :
          List (List Char)) = [quietZone2x r0.length, quietZone2x r0.length] ++ [[]]
          from rfl, ← List.append_assoc]
      exact List.getLast?_concat _
    · intro l hl
      have hshape : (([[], quietZone2x r0.length, quietZone2x r0.length] ++
            (r0 :: rest).map renderRow2x ++
            [quietZone2x r0.length, quietZone2x r0.length, []]) :
          List (List Char)).tail.dropLast =
          [quietZone2x r0.length, quietZone2x r0.length] ++
            (r0 :: rest).map renderRow2x ++
            [quietZone2x r0.length, quietZone2x r0.length] := by
        have h1 : (([[], quietZone2x r0.length, quietZone2x r0.length] ++
            (r0 :: rest).map renderRow2x ++
            [quietZone2x r0.length, quietZone2x r0.length, []]) :
            List (List Char)) =
            [] :: ((([quietZone2x r0.length, quietZone2x r0.length] ++
              (r0 :: rest).map renderRow2x ++
              [quietZone2x r0.length, quietZone2x r0.length]) : List (List Char)) ++
              [[]]) := by
          simp
        rw [h1, List.tail_cons, List.dropLast_concat]
      rw [hshape] at hl
      rcases List.mem_append.mp hl with hl1 | hl2
      · rcases List.mem_append.mp hl1 with hq | hm
        · rcases List.mem_cons.mp hq with h | h
          · rw [h, quietZone2x_length, h0]; omega
          · rcases List.mem_cons.mp h with h' | h'
            · rw [h', quietZone2x_length, h0]; omega
            · exact absurd h' (List.not_mem_nil l)
        · obtain ⟨row, hrow, hrw⟩ := List.mem_map.mp hm
          rw [← hrw, renderRow2x_length, hr row hrow]
      · rcases List.mem_cons.mp hl2 with h | h
        · rw [h, quietZone2x_length, h0]; omega
        · rcases List.mem_cons.mp h with h' | h'
          · rw [h', quietZone2x_length, h0]; omega
          · exact absurd h' (List.not_mem_nil l)

/-- Claim C3 witness: instantiation at the 1×1 all-light matrix. -/
theorem c3_witness :
    ([[], quietZone2x 1, quietZone2x 1,
        ['█', '█', '█', '█', '█', '█', '█', '█', '█', '█'],
        quietZone2x 1, quietZone2x 1, []] : List (List Char)).length = (1 + 4) + 2 ∧
    ([[], quietZone2x 1, quietZone2x 1,
        ['█', '█', '█', '█', '█', '█', '█', '█', '█', '█'],
        quietZone2x 1, quietZone2x 1, []] : List (List Char)).head? = some [] ∧
    (quietZone2x 1).length = 2 * 1 + 8 := by
  have h := c3_amended [[false]] 1
    [[], quietZone2x 1, quietZone2x 1,
      ['█', '█', '█', '█', '█', '█', '█', '█', '█', '█'],
      quietZone2x 1, quietZone2x 1, []]
    (by decide) (by decide) (by decide) (by decide)
  exact ⟨h.1, h.2.1, h.2.2.2 (quietZone2x 1) (by decide)⟩

/-- Claim C4: for a square matrix of side `n ≥ 1` the half-density renderer
emits `⌈n/2⌉ + 2` border-and-data lines (its data lines are exactly
`specHalfLines`, of length `(n+1)/2`, between one border line on each side),
and when `n` is odd the final unpaired row is rendered alone with the
missing bottom row treated as light. -/
theorem c4_theorem (code : List (List Bool)) (n : Nat) (hn : 1 ≤ n)
    (hlen : code.length = n) (hr : ∀ r ∈ code, r.length = n) :
    renderHalfDensity code =
      some ([[], quietZoneHalf n] ++ specHalfLines code ++ [quietZoneHalf n, []]) ∧
    (specHalfLines code).length = (n + 1) / 2 ∧
    (n % 2 = 1 → ∀ lr, code.getLast? = some lr →
      (specHalfLines code).getLast? = some (mkHalfLine (topGlyphRow lr))) := by
  cases code with
  | nil => simp at hlen; omega
  | cons r0 rest =>
    have h0 : r0.length = n := hr r0 (by simp)
    refine ⟨?_, ?_, ?_⟩
    · rw [← h0]
      exact renderHalfDensity_eq r0 rest (by intro r hm; rw [h0]; exact hr r hm)
    · rw [specHalfLines_length, hlen]
    · intro hodd lr hlast
      exact specHalfLines_getLast_odd (r0 :: rest) lr (by rw [hlen]; exact hodd) hlast

/-- Claim C4 witness: instantiation at the 1×1 matrix, whose single row is
the odd unpaired one. -/
theorem c4_witness :
    renderHalfDensity [[true]] =
      some ([[], quietZoneHalf 1] ++ specHalfLines [[true]] ++ [quietZoneHalf 1, []]) ∧
    (specHalfLines [[true]]).length = (1 + 1) / 2 ∧
    (specHalfLines [[true]]).getLast? = some (mkHalfLine (topGlyphRow [true])) :=
  ⟨(c4_theorem [[true]] 1 (by decide) (by decide) (by decide)).1,
    (c4_theorem [[true]] 1 (by decide) (by decide) (by decide)).2.1,
    (c4_theorem [[true]] 1 (by decide) (by decide) (by decide)).2.2 (by decide)
      [true] (by decide)⟩

/-- Claim C5 counterexample: on the ragged matrix `[[0], [0, 0]]` (row
lengths 1 and 2) both renderers succeed and emit output — neither fails
with a ragged-matrix error. -/
theorem c5_counterexample :
    (renderFullDensity [[false], [false, false]]).isSome = true ∧
    (renderHalfDensity [[false], [false, false]]).isSome = true ∧
    ([[false], [false, false]].map List.length : List Nat) = [1, 2] := by decide

/-- Claim C5 (amended): neither renderer validates row lengths.  On any
nonempty matrix — ragged or not — the full-density renderer succeeds,
rendering each row at its own width; the half-density renderer succeeds
whenever no row is longer than the first (a longer row can only fail on a
dark module past the first row's width, the modelled IndexError). -/
theorem c5_amended (r0 : List Bool) (rest : List (List Bool)) :
    (renderFullDensity (r0 :: rest)).isSome = true ∧
    ((∀ r ∈ rest, r.length ≤ r0.length) →
      (renderHalfDensity (r0 :: rest)).isSome = true) := by
  constructor
  · rw [renderFullDensity_eq]
    rfl
  · intro hsub
    have hall : ∀ r ∈ (r0 :: rest : List (List Bool)), r.length ≤ r0.length := by
      intro r hm
      rcases List.mem_cons.mp hm with h | h
      · rw [h]
      · exact hsub r h
    have hs := halfLoop_isSome r0.length (r0 :: rest) (List.replicate r0.length '█')
      false ⟨r0 :: rest, [[], quietZoneHalf r0.length]⟩ (by simp) hall
    obtain ⟨s2, hs2⟩ := Option.isSome_iff_exists.mp hs
    simp only [renderHalfDensity, draw_token_manual, List.nil_append]
    rw [hs2]
    rfl

/-- Claim C5 witness: instantiation at a rectangular 2×1 matrix. -/
theorem c5_witness :
    (renderFullDensity [[true], [true]]).isSome = true ∧
    (renderHalfDensity [[true], [true]]).isSome = true :=
  ⟨(c5_amended [true] [[true]]).1, (c5_amended [true] [[true]]).2 (by decide)⟩

/-- Claim C6 counterexample: on the zero-row matrix neither renderer
produces any buffer — both fail (the modelled IndexError from
`qrc.code[0]`), instead of emitting border-only output. -/
theorem c6_counterexample :
    (¬ ∃ lines, renderFullDensity ([] : List (List Bool)) = some lines) ∧
    (¬ ∃ lines, renderHalfDensity ([] : List (List Bool)) = some lines) := by
  constructor <;> rintro ⟨lines, h⟩ <;>
    simp [renderFullDensity, renderHalfDensity, draw_token_manual_2x,
      draw_token_manual] at h

/-- Claim C6 (amended): a matrix with zero rows is rejected by both
renderers — each fails on the unconditional access to the first row and
emits nothing. -/
theorem c6_amended :
    renderFullDensity ([] : List (List Bool)) = none ∧
    renderHalfDensity ([] : List (List Bool)) = none := ⟨rfl, rfl⟩

/-- Claim C7: every code line has the literal form
`At HH:MM:SS, the check code is: NNNNNN` with a six-digit zero-padded code
and two-digit clock fields, and the lines are emitted in the fixed order
−60s, −30s, 0s, +30s, +60s when `--extra-codes` is set, else just 0s. -/
theorem c7_theorem (secret : List Nat) (now : Nat) (extra : Bool) (line : List Char)
    (hline : line ∈ mainCodeLines secret now extra) :
    mainCodeLines secret now extra =
      (if extra then [(-60 : Int), -30, 0, 30, 60] else [(0 : Int)]).map
        (print_code secret now) ∧
    ∃ hh mm ss c, line = "At ".toList ++ hh ++ [':'] ++ mm ++ [':'] ++ ss ++
        ", the check code is: ".toList ++ c ∧
      hh.length = 2 ∧ mm.length = 2 ∧ ss.length = 2 ∧ c.length = 6 ∧
      (∀ ch ∈ hh ++ mm ++ ss ++ c, ch.isDigit = true) := by
  constructor
  · cases extra <;> simp [mainCodeLines]
  · have hdelta : ∃ delta : Int, line = print_code secret now delta := by
      cases extra with
      | false =>
        simp only [mainCodeLines, if_neg Bool.false_ne_true,
          List.mem_singleton] at hline
        exact ⟨0, hline⟩
      | true =>
        simp only [mainCodeLines, if_true, List.mem_cons,
          List.mem_singleton, List.not_mem_nil, or_false] at hline
        rcases hline with h | h | h | h | h
        · exact ⟨-60, h⟩
        · exact ⟨-30, h⟩
        · exact ⟨0, h⟩
        · exact ⟨30, h⟩
        · exact ⟨60, h⟩
    obtain ⟨delta, rfl⟩ := hdelta
    exact print_code_shape secret now delta

/-- Claim C7 witness: instantiation without drift tolerance. -/
theorem c7_witness :
    mainCodeLines [1] 0 false = [(0 : Int)].map (print_code [1] 0) :=
  (c7_theorem [1] 0 false (print_code [1] 0 0) (by simp [mainCodeLines])).1

/-- Claim C8: code derivation is deterministic — two calls with identical
(secret, instant, stepSeconds, digits) yield identical codes. -/
theorem c8_theorem (s1 s2 : List Nat) (t1 t2 step1 step2 d1 d2 : Nat)
    (hs : s1 = s2) (ht : t1 = t2) (hstep : step1 = step2) (hd : d1 = d2) :
    deriveCode s1 t1 step1 d1 = deriveCode s2 t2 step2 d2 := by
  subst hs
  subst ht
  subst hstep
  subst hd
  rfl

/-- Claim C8 witness: two calls on the RFC 6238 test secret at Unix time 59
agree. -/
theorem c8_witness :
    deriveCode [49, 50, 51, 52, 53, 54, 55, 56, 57, 48, 49, 50, 51, 52, 53, 54,
        55, 56, 57, 48] 59 30 6 =
      deriveCode [49, 50, 51, 52, 53, 54, 55, 56, 57, 48, 49, 50, 51, 52, 53, 54,
        55, 56, 57, 48] 59 30 6 :=
  c8_theorem _ _ 59 59 30 30 6 6 rfl rfl rfl rfl

set_option maxRecDepth 100000 in
/-- Sanity check of the modelled TOTP engine against the RFC 4226/6238 test
vector: secret `12345678901234567890` (ASCII), Unix time 59 (counter 1),
six digits, expected code 287082. -/
theorem deriveCode_rfc_vector :
    deriveCode [49, 50, 51, 52, 53, 54, 55, 56, 57, 48, 49, 50, 51, 52, 53, 54,
        55, 56, 57, 48] 59 30 6 = ['2', '8', '7', '0', '8', '2'] := by decide

/-- Claim C9: neither renderer mutates the caller's module matrix — the
`code` component of the print state is unchanged by both renderer calls. -/
theorem c9_theorem (s t s2 t2 : PrintState)
    (hf : draw_token_manual_2x s = some s2) (hh : draw_token_manual t = some t2) :
    s2.code = s.code ∧ t2.code = t.code := by
  constructor
  · cases hc : s.code with
    | nil => simp [draw_token_manual_2x, hc] at hf
    | cons r0 rest =>
      simp only [draw_token_manual_2x, hc, Option.some_inj] at hf
      subst hf
      rw [← hc]
      simp [emitRows2x_code]
  · cases hc : t.code with
    | nil => simp [draw_token_manual, hc] at hh
    | cons r0 rest =>
      simp only [draw_token_manual, hc] at hh
      cases hloop : halfLoop r0.length (r0 :: rest) (List.replicate r0.length '█')
          false ⟨r0 :: rest, t.out ++ [[], quietZoneHalf r0.length]⟩ with
      | none => rw [hloop] at hh; exact absurd hh (by simp)
      | some s3 =>
        rw [hloop] at hh
        simp only [Option.some_inj] at hh
        subst hh
        rw [← hc] at hloop ⊢
        have := halfLoop_code r0.length t.code _ _ _ _ hloop
        simpa using this

/-- Claim C9 witness: instantiation at the 1×1 all-dark matrix; the matrix
component of the state is unchanged by both renderers. -/
theorem c9_witness :
    (⟨[[true]], [[], quietZone2x 1, quietZone2x 1,
        ['█', '█', '█', '█', ' ', ' ', '█', '█', '█', '█'],
        quietZone2x 1, quietZone2x 1, []]⟩ : PrintState).code =
      (⟨[[true]], []⟩ : PrintState).code ∧
    (⟨[[true]], [[], quietZoneHalf 1, ['█', '█', '▄', '█', '█'],
        quietZoneHalf 1, []]⟩ : PrintState).code =
      (⟨[[true]], []⟩ : PrintState).code :=
  c9_theorem ⟨[[true]], []⟩ ⟨[[true]], []⟩ _ _ rfl rfl

/-- Claim C10: both renderers emit one empty line, then their border line;
they end with an empty line after the last border line; the total line
count is the border-plus-data count plus two. -/
theorem c10_theorem (r0 : List Bool) (rest : List (List Bool))
    (full half : List (List Char))
    (hf : renderFullDensity (r0 :: rest) = some full)
    (hh : renderHalfDensity (r0 :: rest) = some half) :
    full.head? = some [] ∧ full[1]? = some (quietZone2x r0.length) ∧
    full.getLast? = some [] ∧ full.length = ((r0 :: rest).length + 4) + 2 ∧
    half.head? = some [] ∧ half[1]? = some (quietZoneHalf r0.length) ∧
    half.getLast? = some [] ∧
    half.length = (((r0 :: rest).length + 1) / 2 + 2) + 2 := by
  rw [renderFullDensity_eq] at hf
  have hF := Option.some.inj hf
  subst hF
  simp only [renderHalfDensity, draw_token_manual, List.nil_append] at hh
  cases hloop : halfLoop r0.length (r0 :: rest) (List.replicate r0.length '█')
      false ⟨r0 :: rest, [[], quietZoneHalf r0.length]⟩ with
  | none => rw [hloop] at hh; simp at hh
  | some s3 =>
    rw [hloop] at hh
    simp only [Option.map_some', Option.some_inj] at hh
    obtain ⟨tail, htail⟩ := halfLoop_out_extend r0.length (r0 :: rest) _ _ _ _ hloop
    have hlen3 := halfLoop_out_length r0.length (r0 :: rest) _ _ hloop
    simp only at htail hlen3
    refine ⟨by simp, ?_, ?_, ?_, ?_, ?_, ?_, ?_⟩
    · simp
    · rw [show ([quietZone2x r0.length, quietZone2x r0.length, []] :
          List (List Char)) = [quietZone2x r0.length, quietZone2x r0.length] ++ [[]]
          from rfl, ← List.append_assoc]
      exact List.getLast?_concat _
    · simp only [List.length_append, List.length_map, List.length_cons,
        List.length_nil]
      omega
    · rw [← hh, htail]
      simp
    · rw [← hh, htail]
      simp
    · rw [← hh, show ([quietZoneHalf r0.length, []] : List (List Char)) =
        [quietZoneHalf r0.length] ++ [[]] from rfl, ← List.append_assoc]
      exact List.getLast?_concat _
    · rw [← hh]
      simp only [List.length_append, List.length_cons, List.length_nil] at hlen3 ⊢
      omega

/-- Claim C10 witness: instantiation at the 1×1 all-dark matrix. -/
theorem c10_witness :
    ([[], quietZone2x 1, quietZone2x 1,
        ['█', '█', '█', '█', ' ', ' ', '█', '█', '█', '█'],
        quietZone2x 1, quietZone2x 1, []] : List (List Char)).head? = some [] ∧
    ([[], quietZone2x 1, quietZone2x 1,
        ['█', '█', '█', '█', ' ', ' ', '█', '█', '█', '█'],
        quietZone2x 1, quietZone2x 1, []] : List (List Char))[1]? =
      some (quietZone2x 1) ∧
    ([[], quietZone2x 1, quietZone2x 1,
        ['█', '█', '█', '█', ' ', ' ', '█', '█', '█', '█'],
        quietZone2x 1, quietZone2x 1, []] : List (List Char)).getLast? = some [] ∧
    ([[], quietZone2x 1, quietZone2x 1,
        ['█', '█', '█', '█', ' ', ' ', '█', '█', '█', '█'],
        quietZone2x 1, quietZone2x 1, []] : List (List Char)).length = (1 + 4) + 2 ∧
    ([[], quietZoneHalf 1, ['█', '█', '▄', '█', '█'],
        quietZoneHalf 1, []] : List (List Char)).head? = some [] ∧
    ([[], quietZoneHalf 1, ['█', '█', '▄', '█', '█'],
        quietZoneHalf 1, []] : List (List Char))[1]? = some (quietZoneHalf 1) ∧
    ([[], quietZoneHalf 1, ['█', '█', '▄', '█', '█'],
        quietZoneHalf 1, []] : List (List Char)).getLast? = some [] ∧
    ([[], quietZoneHalf 1, ['█', '█', '▄', '█', '█'],
        quietZoneHalf 1, []] : List (List Char)).length = ((1 + 1) / 2 + 2) + 2 :=
  c10_theorem [true] []
    [[], quietZone2x 1, quietZone2x 1,
      ['█', '█', '█', '█', ' ', ' ', '█', '█', '█', '█'],
      quietZone2x 1, quietZone2x 1, []]
    [[], quietZoneHalf 1, ['█', '█', '▄', '█', '█'], quietZoneHalf 1, []]
    rfl rfl
